import Mathlib

/-!
Verification development for the uv project/runtime orchestrator core.

Each Rust source function under scrutiny is shallowly embedded as an
executable Lean definition, translated from the source file named in the
corresponding section header.  Machine integers are modelled as `Nat` with
explicit `% 2 ^ w` where overflow matters; fallible Rust functions are
modelled with `Except`; filesystem and network effects are modelled by
explicit state passing or by oracle parameters.
-/

namespace Uv

instance {ε α : Type _} [DecidableEq ε] [DecidableEq α] : DecidableEq (Except ε α) :=
  fun x y =>
    match x, y with
    | .ok a, .ok b =>
      if h : a = b then isTrue (by rw [h]) else isFalse (fun hc => h (by injection hc))
    | .error e, .error f =>
      if h : e = f then isTrue (by rw [h]) else isFalse (fun hc => h (by injection hc))
    | .ok _, .error _ => isFalse (fun hc => Except.noConfusion hc)
    | .error _, .ok _ => isFalse (fun hc => Except.noConfusion hc)

/-! ## §1 Config settings — `crates/uv-configuration/src/config_settings.rs`

`ConfigSettings` is a `BTreeMap<String, ConfigSettingValue>`.  We embed the
`BTreeMap` as an association list kept strictly sorted by the byte-wise
(equivalently, code-point-wise) lexicographic order on keys, which is the
`Ord` instance Rust uses for `String`.  -/

/-- Byte/code-point lexicographic strict order on strings, as used by
Rust's `Ord for String` (UTF-8 byte order coincides with code-point
order). -/
def strLt (a b : String) : Bool :=
  go a.data b.data
where
  go : List Char → List Char → Bool
    | [], [] => false
    | [], _ :: _ => true
    | _ :: _, [] => false
    | c :: cs, d :: ds => if c < d then true else if d < c then false else go cs ds

/-- `ConfigSettingValue`: a single string or a list of strings. -/
inductive ConfigSettingValue where
  | str (s : String)
  | list (vs : List String)
deriving DecidableEq, Repr

/-- `ConfigSettingEntry`: one `KEY=VALUE` pair. -/
structure ConfigSettingEntry where
  key : String
  value : String
deriving DecidableEq, Repr

/-- The underlying map of `ConfigSettings`: an association list sorted by
`strLt` on keys (the embedding of `BTreeMap<String, ConfigSettingValue>`). -/
abbrev CSMap := List (String × ConfigSettingValue)

/-- First-match lookup (on a sorted, duplicate-free list this is `BTreeMap::get`). -/
def csLookup (k : String) : CSMap → Option ConfigSettingValue
  | [] => none
  | (k', v) :: rest => if k' = k then some v else csLookup k rest

/-- Ordered insert that replaces an existing binding of the same key
(`BTreeMap::insert` / the `entry` API's vacant-insert and occupied-replace). -/
def csInsert (k : String) (v : ConfigSettingValue) : CSMap → CSMap
  | [] => [(k, v)]
  | (k', v') :: rest =>
    if strLt k k' then (k, v) :: (k', v') :: rest
    else if k = k' then (k, v) :: rest
    else (k', v') :: csInsert k v rest

/-- Well-formedness of the `BTreeMap` embedding: keys strictly sorted. -/
abbrev CSWF (m : CSMap) : Prop :=
  List.Chain' (fun a b => strLt a.1 b.1 = true) m

/-- One step of `ConfigSettings::from_iter` (`config_settings.rs:115-136`):
a vacant key receives the string; an occupied string is promoted to a
two-element list; an occupied list is extended. -/
def collectEntry (m : CSMap) (e : ConfigSettingEntry) : CSMap :=
  match csLookup e.key m with
  | none => csInsert e.key (.str e.value) m
  | some (.str existing) => csInsert e.key (.list [existing, e.value]) m
  | some (.list existing) => csInsert e.key (.list (existing ++ [e.value])) m

/-- `ConfigSettings::from_iter` (`config_settings.rs:115-136`). -/
def fromIter (es : List ConfigSettingEntry) : CSMap :=
  es.foldl collectEntry []

/-- The occupied-entry combination used by `ConfigSettings::merge`
(`config_settings.rs:154-188`). -/
def mergeValue : ConfigSettingValue → ConfigSettingValue → ConfigSettingValue
  | .str existing, .str v => .list [existing, v]
  | .str existing, .list vs => .list (existing :: vs)
  | .list existing, .str v => .list (existing ++ [v])
  | .list existing, .list vs => .list (existing ++ vs)

/-- One step of `ConfigSettings::merge`: fold a single `(key, value)` pair of
the right-hand map into the accumulator. -/
def mergeEntry (m : CSMap) (kv : String × ConfigSettingValue) : CSMap :=
  match csLookup kv.1 m with
  | none => csInsert kv.1 kv.2 m
  | some existing => csInsert kv.1 (mergeValue existing kv.2) m

/-- `ConfigSettings::merge` (`config_settings.rs:154-188`): start from `self`
and fold in every pair of `other` (iterated in `other`'s key order). -/
def csMerge (l r : CSMap) : CSMap :=
  r.foldl mergeEntry l

/-- Iteration/serialization key order of a `ConfigSettings` map. -/
def csKeys (m : CSMap) : List String :=
  m.map Prod.fst

/-- Hex digit used by `serde_json`'s `\u00XX` escapes (lower case). -/
def hexDigit (n : Nat) : Char :=
  if n < 10 then Char.ofNat (48 + n) else Char.ofNat (87 + n)

/-- `serde_json`'s escaping of a single character inside a JSON string:
`"` and `\` are backslash-escaped, control characters below `0x20` use the
short escapes or `\u00XX`. -/
def jsonEscapeChar (c : Char) : String :=
  if c = '"' then "\\\""
  else if c = '\\' then "\\\\"
  else if c = '\x08' then "\\b"
  else if c = '\x09' then "\\t"
  else if c = '\x0a' then "\\n"
  else if c = '\x0c' then "\\f"
  else if c = '\x0d' then "\\r"
  else if c.toNat < 0x20 then
    "\\u00" ++ String.singleton (hexDigit (c.toNat / 16)) ++ String.singleton (hexDigit (c.toNat % 16))
  else String.singleton c

/-- `serde_json` escaping of a whole string (without the quotes). -/
def jsonEscape (s : String) : String :=
  s.data.foldl (fun acc c => acc ++ jsonEscapeChar c) ""

/-- JSON serialization of a `ConfigSettingValue` (its `serde::Serialize`
impl, `config_settings.rs:67-74`, rendered by `serde_json::to_string`). -/
def serializeValue : ConfigSettingValue → String
  | .str s => "\"" ++ jsonEscape s ++ "\""
  | .list vs => "[" ++ String.intercalate "," (vs.map (fun v => "\"" ++ jsonEscape v ++ "\"")) ++ "]"

/-- `ConfigSettings::escape_for_python` (`config_settings.rs:150-152`):
compact `serde_json` serialization of the map, in map iteration order. -/
def escapeForPython (m : CSMap) : String :=
  "\x7b" ++ String.intercalate "," (m.map (fun kv => "\"" ++ jsonEscape kv.1 ++ "\":" ++ serializeValue kv.2)) ++ "\x7d"

/-- The values observed for key `k` in a sequence of entries, in arrival order. -/
def occurrences (k : String) (es : List ConfigSettingEntry) : List String :=
  (es.filter (fun e => e.key = k)).map (fun e => e.value)

/-- The spec's description of what a key's value must be after collection:
absent when never observed, a string after one observation, a list of all
observations (in arrival order) afterwards. -/
def describeOccurrences : List String → Option ConfigSettingValue
  | [] => none
  | [v] => some (.str v)
  | v :: vs => some (.list (v :: vs))

/-! ## §2 Path normalization — `crates/uv-fs/src/path.rs`

Paths are embedded as the component lists produced by Rust's
`Path::components()` on Unix (no Windows prefix components).  `PathBuf`
push/pop is modelled faithfully: pushing the root component replaces the
buffer, popping fails on an empty buffer or a bare root. -/

/-- A component of `Path::components()` (Unix: no `Prefix`). -/
inductive Component where
  | rootDir
  | curDir
  | parentDir
  | normal (name : String)
deriving DecidableEq, Repr

/-- A path, as its component list. -/
abbrev RPath := List Component

/-- Well-formedness of a component list as produced by `Path::components()`:
the root and `.` components can only appear in head position, and normal
names are nonempty, not `.` or `..`, and contain no separator. -/
def WFPath (p : RPath) : Bool :=
  ((p.drop 1).all fun c =>
    match c with
    | .rootDir => false
    | .curDir => false
    | _ => true) &&
  (p.all fun c =>
    match c with
    | .normal s => !(s = "" || s = "." || s = ".." || s.data.any (fun ch => ch == '/'))
    | _ => true)

/-- `PathBuf::push` of one component: the root component is an absolute
path and replaces the buffer, anything else is appended. -/
def pushComponent (p : RPath) (c : Component) : RPath :=
  match c with
  | .rootDir => [.rootDir]
  | c => p ++ [c]

/-- `PathBuf::pop` / `Path::parent`: drop the last component; `none` on an
empty buffer or a bare root. -/
def popComponent : RPath → Option RPath
  | [] => none
  | [.rootDir] => none
  | p => some p.dropLast

/-- The `io::ErrorKind` values used by the embedded functions. -/
inductive IoErrorKind where
  | invalidInput
deriving DecidableEq, Repr

/-- The loop body of `normalize_absolute_path` (`path.rs:174-207`):
root components are pushed, `.` skipped, `..` pops (failing with
`InvalidInput` when the pop fails), normal components are pushed. -/
def normalizeAbsGo (ret : RPath) : List Component → Except IoErrorKind RPath
  | [] => .ok ret
  | c :: rest =>
    match c with
    | .rootDir => normalizeAbsGo (pushComponent ret .rootDir) rest
    | .curDir => normalizeAbsGo ret rest
    | .parentDir =>
      match popComponent ret with
      | some ret' => normalizeAbsGo ret' rest
      | none => .error .invalidInput
    | .normal s => normalizeAbsGo (pushComponent ret (.normal s)) rest

/-- `normalize_absolute_path` (`path.rs:174-207`), on Unix (no `Prefix`
component, so the accumulator starts empty). -/
def normalizeAbsolutePath (p : RPath) : Except IoErrorKind RPath :=
  normalizeAbsGo [] p

/-- The spec's wording of the failure condition of `normalize_absolute_path`:
a `..` component escapes the root, i.e., at some point a `..` is seen when
no normal component is left to remove (a root component resets the count,
as pushing an absolute path replaces the buffer). -/
def escapesRoot (p : RPath) : Bool :=
  go 0 p
where
  go (depth : Nat) : List Component → Bool
    | [] => false
    | .rootDir :: rest => go 0 rest
    | .curDir :: rest => go depth rest
    | .normal _ :: rest => go (depth + 1) rest
    | .parentDir :: rest =>
      match depth with
      | 0 => true
      | d + 1 => go d rest

/-- One step of the `normalized` helper (`path.rs:252-278`): root and
normal components are pushed, `..` is preserved after nothing, a `..` or
the root (above-root) and otherwise pops, `.` is dropped. -/
def normalizedStep (acc : RPath) (c : Component) : RPath :=
  match c with
  | .rootDir => [.rootDir]
  | .normal s => acc ++ [.normal s]
  | .parentDir =>
    match acc.getLast? with
    | none => acc ++ [.parentDir]
    | some .parentDir => acc ++ [.parentDir]
    | some .rootDir => acc ++ [.parentDir]
    | some (.normal _) => acc.dropLast
    | some .curDir => acc.dropLast
  | .curDir => acc

/-- `normalized` (`path.rs:252-278`). -/
def normalized (p : RPath) : RPath :=
  p.foldl normalizedStep []

/-- The fast-path test of `normalize_path` (`path.rs:210-220`): already
normalized means no `.` or `..` components. -/
def isClean (p : RPath) : Bool :=
  p.all fun c =>
    match c with
    | .rootDir => true
    | .normal _ => true
    | .parentDir => false
    | .curDir => false

/-- `normalize_path` (`path.rs:210-220`). -/
def normalizePath (p : RPath) : RPath :=
  if isClean p then p else normalized p

/-- `Path::ancestors` with an explicit fuel (`p.length` always suffices,
since each parent step shortens the path). -/
def ancestorsFuel : Nat → RPath → List RPath
  | 0, p => [p]
  | n + 1, p =>
    p ::
      match popComponent p with
      | some q => ancestorsFuel n q
      | none => []

/-- `Path::ancestors`. -/
def ancestors (p : RPath) : List RPath :=
  ancestorsFuel p.length p

/-- `Path::strip_prefix` on component lists: succeeds with the remainder
when the base's components are a prefix of the path's. -/
def stripPref : RPath → RPath → Option RPath
  | p, [] => some p
  | [], _ :: _ => none
  | c :: cs, d :: ds => if c = d then stripPref cs ds else none

/-- `Path::has_root` on Unix. -/
def isAbsolute (p : RPath) : Bool :=
  p.head? = some .rootDir

/-- `Path::join` / `PathBuf::push` of a whole path: an absolute right-hand
side replaces the left-hand side. -/
def pathJoin (a b : RPath) : RPath :=
  if isAbsolute b then b else a ++ b

/-- The `../` run emitted by `relative_to`. -/
def upPath (n : Nat) : RPath :=
  List.replicate n .parentDir

/-- The error of `relative_to` (an `io::Error::other`). -/
inductive RelError where
  | notRelative
deriving DecidableEq, Repr

/-- `relative_to` (`path.rs:288-319`): normalize both paths, find the first
ancestor of the base that is a prefix of the path, and prepend one `..` per
component of the base that is not part of that shared ancestor. -/
def relativeTo (path base : RPath) : Except RelError RPath :=
  let p := normalizePath path
  let b := normalizePath base
  match (ancestors b).findSome? (fun ancestor =>
      (stripPref p ancestor).map (fun stripped => (stripped, ancestor))) with
  | none => .error .notRelative
  | some (stripped, common) =>
    .ok (pathJoin (upPath (b.length - common.length)) stripped)

/-- Normal form of lexically normalized paths: an optional root, then a run
of `..`, then normal components.  Every output of `normalized` has this
shape. -/
def NFShape (p : RPath) : Prop :=
  ∃ (root? : Bool) (i : Nat) (ns : List String),
    p = (if root? then [Component.rootDir] else []) ++ upPath i ++ ns.map Component.normal

/-! ## §3 Version files — `crates/uv-python/src/version_files.rs` -/

/-- `PythonRequest` (declared in `uv-python`'s discovery module, whose file
is not among the sources).  Modelled from the spec: the only variant whose
identity matters to the version-file reader is the bare-executable-name
request; every other request form is collapsed into `other`. -/
inductive PythonRequest where
  | executableName (name : String)
  | other (request : String)
deriving DecidableEq, Repr

/-- The `PythonRequest::ExecutableName` test used by the version-file filter. -/
def PythonRequest.isExecutableName : PythonRequest → Bool
  | .executableName _ => true
  | .other _ => false

/-- Strip one trailing carriage return (the `\r` handling of `str::lines`). -/
def stripCR (l : List Char) : List Char :=
  match l.getLast? with
  | some c => if c = '\x0d' then l.dropLast else l
  | none => l

/-- The accumulator loop of `str::lines`: split at `\n`, stripping `\r\n`
endings; a final unterminated segment is kept verbatim. -/
def linesGo (cur : List Char) : List Char → List (List Char)
  | [] => if cur.isEmpty then [] else [cur]
  | c :: rest =>
    if c = '\x0a' then stripCR cur :: linesGo [] rest
    else linesGo (cur ++ [c]) rest

/-- Rust's `str::lines`. -/
def rustLines (s : String) : List String :=
  (linesGo [] s.data).map String.mk

/-- ASCII/Latin whitespace test (the fragment of `char::is_whitespace`
relevant to version files). -/
def isWS (c : Char) : Bool :=
  c = ' ' || c = '\x09' || c = '\x0a' || c = '\x0b' || c = '\x0c' || c = '\x0d'

/-- `str::trim` on the character list. -/
def trimChars (l : List Char) : List Char :=
  ((l.dropWhile isWS).reverse.dropWhile isWS).reverse

/-- The line filter of `PythonVersionFile::try_from_path`
(`version_files.rs:170-174`): blank lines and `#` comments are skipped. -/
def isSkippedLine (line : String) : Bool :=
  let t := trimChars line.data
  t.isEmpty || t.head? == some '#'

/-- The parsing pipeline of `PythonVersionFile::try_from_path`
(`version_files.rs:161-194`), parametric in `PythonRequest::parse` (whose
source is not available): split into lines, drop blanks and comments, parse
each remaining line, and drop requests that are bare executable names. -/
def tryFromPathVersions (parse : String → PythonRequest) (content : String) :
    List PythonRequest :=
  ((((rustLines content).filter (fun line => !(isSkippedLine line))).map parse).filter
    (fun r => !(r.isExecutableName)))

/-- The spec's per-line description of the same computation: one request
per non-blank, non-comment line, in file order, except that requests
parsing to a bare executable name are dropped. -/
def specVersionRequests (parse : String → PythonRequest) (content : String) :
    List PythonRequest :=
  (rustLines content).filterMap fun line =>
    if isSkippedLine line then none
    else
      match parse line with
      | .executableName _ => none
      | r => some r

/-! ## §4 Run dispatcher — `crates/uv/src/commands/project/run.rs` -/

/-- Decimal rendering of a `Nat` (structurally recursive `to_string`). -/
def natToString (n : Nat) : String :=
  if n = 0 then "0" else String.mk (go n n).reverse
where
  go : Nat → Nat → List Char
    | 0, _ => []
    | _ + 1, 0 => []
    | fuel + 1, m => Char.ofNat (48 + m % 10) :: go fuel (m / 10)

/-- Rust `u32::from_str`: an optional leading `+`, one or more ASCII
digits, and the value must fit in 32 bits. -/
def parseU32 (s : String) : Option Nat :=
  let ds :=
    match s.data with
    | '+' :: rest => rest
    | l => l
  if ds.isEmpty || !(ds.all Char.isDigit) then none
  else
    let n := ds.foldl (fun acc c => acc * 10 + (c.toNat - 48)) 0
    if n < 2 ^ 32 then some n else none

/-- `read_recursion_depth_from_environment_variable` (`run.rs:1723-1736`):
an absent variable reads as `0`; an unparsable value is an error. -/
def readRecursionDepth (envVal : Option String) : Except String Nat :=
  match envVal with
  | none => .ok 0
  | some v =>
    match parseU32 v with
    | some n => .ok n
    | none => .error "invalid value for UV_RUN_RECURSION_DEPTH"

/-- The recursion-limit failure message of `run` (`run.rs:104-113`),
without the terminal colouring applied to the two quoted fragments. -/
def recursionErrorMessage (depth maxDepth : Nat) : String :=
  "\n`uv run` was recursively invoked " ++ natToString depth ++
    " times which exceeds the limit of " ++ natToString maxDepth ++
    ".\n\nhint: If you are running a script with `uv run` in the shebang, you may need to include the `--script` flag."

/-- The recursion-depth gate of `run` (`run.rs:100-113`) combined with the
child-environment update (`run.rs:1275-1279`): on success the child's
`UV_RUN_RECURSION_DEPTH` holds `depth + 1` as a `u32`. -/
def runRecursionGate (maxDepth : Nat) (envVal : Option String) : Except String Nat := do
  let depth ← readRecursionDepth envVal
  if depth > maxDepth then .error (recursionErrorMessage depth maxDepth)
  else .ok ((depth + 1) % 2 ^ 32)

/-- Prefix test on character lists. -/
def isPrefList : List Char → List Char → Bool
  | [], _ => true
  | _ :: _, [] => false
  | c :: cs, d :: ds => c == d && isPrefList cs ds

/-- Substring test on character lists (`pat` occurs somewhere in `l`). -/
def containsSub (l pat : List Char) : Bool :=
  isPrefList pat l ||
    match l with
    | [] => false
    | _ :: rest => containsSub rest pat

/-- Substring test on strings. -/
def strContains (s pat : String) : Bool :=
  containsSub s.data pat.data

/-- ASCII lower-casing of one character. -/
def asciiLower (c : Char) : Char :=
  if 'A' ≤ c && c ≤ 'Z' then Char.ofNat (c.toNat + 32) else c

/-- `eq_ignore_ascii_case`. -/
def eqIgnoreAsciiCase (a b : String) : Bool :=
  a.data.map asciiLower == b.data.map asciiLower

/-- The oracle environment of `RunCommand::from_args`: the bytes read from
stdin, and the filesystem / network predicates the classifier consults
(metadata checks, the remote-URL branch, the zipapp sniff, and the two
extension tests, abstracted as predicates on the target string). -/
structure RunEnv where
  stdinBytes : List Nat
  remoteTaken : String → Bool
  isFile : String → Bool
  isDir : String → Bool
  isZipapp : String → Bool
  mainPyIsFile : String → Bool
  extIsPyOrPyc : String → Bool
  extIsPyw : String → Bool

/-- The classification result of `RunCommand::from_args`
(`run.rs:1341-1365`). -/
inductive RunCommandModel where
  | empty
  | python (args : List String)
  | pythonScript (target : String) (args : List String)
  | pythonModule (target : String) (args : List String)
  | pythonGuiScript (target : String) (args : List String)
  | pythonPackage (target : String) (args : List String)
  | pythonZipapp (target : String) (args : List String)
  | pythonStdin (script : List Nat) (args : List String)
  | pythonGuiStdin (script : List Nat) (args : List String)
  | pythonRemote (url : String) (args : List String)
  | external (cmd : String) (args : List String)
deriving DecidableEq, Repr

/-- `RunCommand::from_args` (`run.rs:1594-1704`): classification of the
target plus trailing arguments.  Filesystem and network effects are
supplied by the `RunEnv` oracles; reading stdin yields `env.stdinBytes`. -/
def fromArgs (env : RunEnv) (module script guiScript : Bool)
    (target : Option String) (args : List String) : Except String RunCommandModel :=
  match target with
  | none => .ok .empty
  | some t =>
    if eqIgnoreAsciiCase t "-" then
      if module then .error "Cannot run a Python module from stdin"
      else if guiScript then .ok (.pythonGuiStdin env.stdinBytes args)
      else .ok (.pythonStdin env.stdinBytes args)
    else if env.remoteTaken t then .ok (.pythonRemote t args)
    else if module then .ok (.pythonModule t args)
    else if guiScript then .ok (.pythonGuiScript t args)
    else if script then .ok (.pythonScript t args)
    else if eqIgnoreAsciiCase t "python" then .ok (.python args)
    else if env.extIsPyOrPyc t && env.isFile t then .ok (.pythonScript t args)
    else if env.extIsPyw t && env.isFile t then .ok (.pythonGuiScript t args)
    else if env.isDir t && env.mainPyIsFile t then .ok (.pythonPackage t args)
    else if env.isFile t && env.isZipapp t then .ok (.pythonZipapp t args)
    else .ok (.external t args)

/-! ## §5 Project environment factory — `crates/uv/src/commands/project/mod.rs` -/

/-- The filesystem answers `ProjectEnvironment::get_or_init` consults about
the target root: `root.try_exists()`, `root.join("pyvenv.cfg").try_exists()`
and `read_dir().is_ok_and(|dir| dir.next().is_none())`. -/
structure EnvRootState where
  rootExists : Except String Bool
  pyvenvCfgExists : Except String Bool
  readDirEmpty : Bool
deriving DecidableEq, Repr

/-- The error raised when the target root cannot be replaced. -/
inductive ProjectErrorModel where
  | invalidProjectEnvironmentDir (reason : String)
deriving DecidableEq, Repr

/-- The `replace` decision of `ProjectEnvironment::get_or_init`
(`mod.rs:1313-1340`), with the match arms in source order. -/
def computeReplace (d : EnvRootState) : Except ProjectErrorModel Bool :=
  match d.rootExists, d.pyvenvCfgExists with
  | _, .ok true => .ok true
  | .ok false, .ok false => .ok false
  | .ok true, .ok false =>
    if d.readDirEmpty then .ok false
    else
      .error (.invalidProjectEnvironmentDir
        "it is not a compatible environment but cannot be recreated because it is not a virtual environment")
  | _, .error e =>
    .error (.invalidProjectEnvironmentDir
      ("it is not a compatible environment but cannot be recreated because uv cannot determine if it is a virtual environment: " ++ e))
  | .error e, _ =>
    .error (.invalidProjectEnvironmentDir
      ("it is not a compatible environment but cannot be recreated because uv cannot determine if it is a virtual environment: " ++ e))

/-- The outcomes of `ProjectEnvironment::get_or_init` (`mod.rs:1232-1255`). -/
inductive ProjectEnvOutcome where
  | existing
  | replaced
  | created
  | wouldReplace
  | wouldCreate
deriving DecidableEq, Repr

/-- `ProjectEnvironment::get_or_init` (`mod.rs:1259-1423`), reduced to its
replacement decision structure.  `foundCompatibleEnv` is the
`ProjectInterpreter::Environment` outcome of discovery; the `Bool` paired
with the outcome records whether `remove_virtualenv(root)` ran (deletion of
the target root).  Environment creation itself (`uv_virtualenv::create_venv`
into the empty-or-absent root, or into a temp dir under `--dry-run`) does
not touch a pre-existing non-empty root. -/
def getOrInit (foundCompatibleEnv : Bool) (d : EnvRootState) (dryRun : Bool) :
    Except ProjectErrorModel (ProjectEnvOutcome × Bool) :=
  if foundCompatibleEnv then .ok (.existing, false)
  else do
    let replace ← computeReplace d
    if dryRun then
      .ok ((if replace then .wouldReplace else .wouldCreate), false)
    else if replace then .ok (.replaced, true)
    else .ok (.created, false)

/-! ## §6 Distribution database — `crates/uv-distribution/src/distribution_database.rs` -/

/-- `Archive`: an archive id plus its recorded digests (digests abstracted
to naturals). -/
structure Archive where
  id : Nat
  digests : List Nat
deriving DecidableEq, Repr

/-- The cache state visible to `stream_wheel` / `download_wheel` for one
wheel entry: the id counter of the archive store (`persist` never reuses an
id), the set of archive directories on disk, the `.http` sidecar pointer,
and a counter of download-callback runs. -/
structure CacheState where
  nextId : Nat
  disk : List Nat
  sidecar : Option Archive
  downloads : Nat
deriving DecidableEq, Repr

/-- Cache well-formedness: every id on disk and the sidecar's id were
allocated before `nextId`. -/
def WFCache (s : CacheState) : Bool :=
  s.disk.all (fun i => decide (i < s.nextId)) &&
    s.sidecar.all (fun a => decide (a.id < s.nextId))

/-- Network-level failure of a download. -/
inductive DbError where
  | network
deriving DecidableEq, Repr

/-- A trivial hash policy (every archive satisfies it), used as a concrete
instantiation of `Archive::has_digests`. -/
def alwaysHasDigests : Archive → Bool :=
  fun _ => true

/-- The download closure of `stream_wheel` / `download_wheel`
(`distribution_database.rs:553-614`, `690-781`): stream/spool the body,
unzip into a temp dir, hash per the policy, and `persist` the directory
under a fresh `ArchiveId`. -/
def downloadCallback (digests : List Nat) (s : CacheState) : CacheState × Archive :=
  ({ s with
      nextId := s.nextId + 1
      disk := s.nextId :: s.disk
      downloads := s.downloads + 1 },
    { id := s.nextId, digests := digests })

/-- Modelled from the spec: `CachedClient::get_serde_with_retry` (the
`uv-client` cached client, not among the sources) serves the sidecar's
archive when the HTTP cache policy allows, and otherwise runs the download
callback and writes the refreshed `(policy, archive)` pointer.  `fresh` is
the oracle for "the cached pointer is served". -/
def getSerde (fresh netOk : Bool) (digests : List Nat) (s : CacheState) :
    Except DbError (CacheState × Archive) :=
  match s.sidecar with
  | some a =>
    if fresh then .ok (s, a)
    else if netOk then
      let (s', a') := downloadCallback digests s
      .ok ({ s' with sidecar := some a' }, a')
    else .error .network
  | none =>
    if netOk then
      let (s', a') := downloadCallback digests s
      .ok ({ s' with sidecar := some a' }, a')
    else .error .network

/-- Modelled from the spec: `CachedClient::skip_cache_with_retry` bypasses
the cache unconditionally, runs the download callback, and rewrites the
pointer. -/
def skipCache (netOk : Bool) (digests : List Nat) (s : CacheState) :
    Except DbError (CacheState × Archive) :=
  if netOk then
    let (s', a') := downloadCallback digests s
    .ok ({ s' with sidecar := some a' }, a')
  else .error .network

/-- `stream_wheel` (`distribution_database.rs:533-668`): fetch through the
cached client, then — if the returned archive is missing required digests
(`hasDigests`, the `Archive::has_digests(hashes)` predicate) or its
directory no longer exists — force a cache-bypassing refresh. -/
def streamWheel (hasDigests : Archive → Bool) (fresh netOk : Bool) (digests : List Nat)
    (s : CacheState) : Except DbError (CacheState × Archive) := do
  let (s1, a1) ← getSerde fresh netOk digests s
  if hasDigests a1 && s1.disk.contains a1.id then .ok (s1, a1)
  else skipCache netOk digests s1

/-- `download_wheel` (`distribution_database.rs:670-835`): identical
caching structure; the callback differs only in spooling the payload to a
temp file before extraction. -/
def downloadWheel (hasDigests : Archive → Bool) (fresh netOk : Bool) (digests : List Nat)
    (s : CacheState) : Except DbError (CacheState × Archive) := do
  let (s1, a1) ← getSerde fresh netOk digests s
  if hasDigests a1 && s1.disk.contains a1.id then .ok (s1, a1)
  else skipCache netOk digests s1

/-- The streaming-error predicates of `uv_extract::Error` /
`uv_client::Error` (`is_http_streaming_unsupported`,
`is_http_streaming_failed`), abstracted to their truth values. -/
structure StreamErrFlags where
  unsupported : Bool
  failed : Bool
deriving DecidableEq, Repr

/-- The `Error` variants distinguished by `get_wheel`'s match arms. -/
inductive UvError where
  | extract (filename : String) (e : StreamErrFlags)
  | client (e : StreamErrFlags)
  | other
deriving DecidableEq, Repr

/-- The two streaming wheel variants of `BuiltDist` handled by
`get_wheel`'s streaming arms. -/
inductive WheelVariant where
  | registry
  | directUrl
deriving DecidableEq, Repr

/-- `get_wheel`'s streaming-fallback control flow
(`distribution_database.rs:178-325`), parametric in the outcomes of
`stream_wheel` and `download_wheel`: the registry arm recovers `Extract`
errors flagged streaming-unsupported or streaming-failed by running
`download_wheel`; the direct-URL arm recovers only `Client` errors flagged
streaming-unsupported. -/
def getWheel (variant : WheelVariant) (streamResult downloadResult : Except UvError Archive) :
    Except UvError Archive :=
  match variant with
  | .registry =>
    match streamResult with
    | .ok a => .ok a
    | .error (.extract name e) =>
      if e.unsupported || e.failed then downloadResult else .error (.extract name e)
    | .error err => .error err
  | .directUrl =>
    match streamResult with
    | .ok a => .ok a
    | .error (.client e) =>
      if e.unsupported then downloadResult else .error (.client e)
    | .error err => .error err

/-- The recoverable error kinds per `get_wheel` arm, as the amended claim
states them. -/
def recoverable (variant : WheelVariant) (err : UvError) : Bool :=
  match variant, err with
  | .registry, .extract _ e => e.unsupported || e.failed
  | .directUrl, .client e => e.unsupported
  | _, _ => false

/-! ### Order lemmas for `strLt` -/

theorem strLt_go_irrefl : ∀ l : List Char, strLt.go l l = false := by
  intro l
  induction l with
  | nil => rfl
  | cons c cs ih =>
    simp [strLt.go, ih]

theorem strLt_irrefl (a : String) : strLt a a = false := by
  simpa [strLt] using strLt_go_irrefl a.data

theorem strLt_go_trans :
    ∀ (a b c : List Char), strLt.go a b = true → strLt.go b c = true → strLt.go a c = true := by
  intro a
  induction a with
  | nil =>
    intro b c hab hbc
    cases b with
    | nil => exact hbc
    | cons y ys =>
      cases c with
      | nil => simp [strLt.go] at hbc
      | cons z zs => simp [strLt.go]
  | cons x xs ih =>
    intro b c hab hbc
    cases b with
    | nil => simp [strLt.go] at hab
    | cons y ys =>
      cases c with
      | nil => simp [strLt.go] at hbc
      | cons z zs =>
        simp only [strLt.go] at hab hbc ⊢
        by_cases hxy : x < y
        · by_cases hyz : y < z
          · simp [lt_trans hxy hyz]
          · by_cases hzy : z < y
            · simp [hyz, hzy] at hbc
            · have hyz' : y = z := le_antisymm (not_lt.mp hzy) (not_lt.mp hyz)
              subst hyz'
              simp [hxy]
        · by_cases hyx : y < x
          · simp [hxy, hyx] at hab
          · have hxy' : x = y := le_antisymm (not_lt.mp hyx) (not_lt.mp hxy)
            subst hxy'
            simp only [if_neg hxy, if_neg (lt_irrefl x)] at hab ⊢
            by_cases hyz : x < z
            · simp [hyz]
            · by_cases hzy : z < x
              · simp [hyz, hzy] at hbc
              · have hyz' : x = z := le_antisymm (not_lt.mp hzy) (not_lt.mp hyz)
                subst hyz'
                simp only [if_neg (lt_irrefl x)] at hbc ⊢
                exact ih ys zs (by simpa [hxy] using hab) (by simpa using hbc)

theorem strLt_trans {a b c : String} (hab : strLt a b = true) (hbc : strLt b c = true) :
    strLt a c = true :=
  strLt_go_trans a.data b.data c.data hab hbc

theorem strLt_go_tri :
    ∀ (a b : List Char), strLt.go a b = true ∨ a = b ∨ strLt.go b a = true := by
  intro a
  induction a with
  | nil =>
    intro b
    cases b with
    | nil => simp
    | cons y ys => left; simp [strLt.go]
  | cons x xs ih =>
    intro b
    cases b with
    | nil => right; right; simp [strLt.go]
    | cons y ys =>
      rcases lt_trichotomy x y with hxy | hxy | hxy
      · left; simp [strLt.go, hxy]
      · subst hxy
        rcases ih ys with h | h | h
        · left; simp [strLt.go, h]
        · right; left; simp [h]
        · right; right; simp [strLt.go, h]
      · right; right; simp [strLt.go, hxy]

theorem strLt_tri (a b : String) : strLt a b = true ∨ a = b ∨ strLt b a = true := by
  rcases strLt_go_tri a.data b.data with h | h | h
  · exact Or.inl h
  · refine Or.inr (Or.inl ?_)
    cases a
    cases b
    exact congrArg String.mk h
  · exact Or.inr (Or.inr h)

/-! ### Lookup / insert lemmas -/

theorem csLookup_csInsert_self (k : String) (v : ConfigSettingValue) :
    ∀ m : CSMap, csLookup k (csInsert k v m) = some v := by
  intro m
  induction m with
  | nil => simp [csInsert, csLookup]
  | cons hd rest ih =>
    obtain ⟨k', v'⟩ := hd
    by_cases hlt : strLt k k' = true
    · simp [csInsert, hlt, csLookup]
    · by_cases heq : k = k'
      · subst heq
        simp [csInsert, strLt_irrefl, csLookup]
      · have : k' ≠ k := fun h => heq h.symm
        simp [csInsert, hlt, heq, csLookup, this, ih]

theorem csLookup_csInsert_ne (k j : String) (v : ConfigSettingValue) (hkj : k ≠ j) :
    ∀ m : CSMap, csLookup j (csInsert k v m) = csLookup j m := by
  intro m
  induction m with
  | nil => simp [csInsert, csLookup, hkj]
  | cons hd rest ih =>
    obtain ⟨k', v'⟩ := hd
    by_cases hlt : strLt k k' = true
    · simp [csInsert, hlt, csLookup, hkj]
    · by_cases heq : k = k'
      · subst heq
        simp [csInsert, strLt_irrefl, csLookup, hkj]
      · simp [csInsert, hlt, heq, csLookup, ih]

theorem mem_csKeys_csInsert (k a : String) (v : ConfigSettingValue) :
    ∀ m : CSMap, a ∈ csKeys (csInsert k v m) ↔ a = k ∨ a ∈ csKeys m := by
  intro m
  induction m with
  | nil => simp [csInsert, csKeys]
  | cons hd rest ih =>
    obtain ⟨k', v'⟩ := hd
    by_cases hlt : strLt k k' = true
    · simp [csInsert, hlt, csKeys]
    · by_cases heq : k = k'
      · subst heq
        simp [csInsert, strLt_irrefl, csKeys]
      · simp [csInsert, hlt, heq, csKeys] at ih ⊢
        tauto

theorem head_csInsert (k : String) (v : ConfigSettingValue) (m : CSMap) :
    ∀ y ∈ (csInsert k v m).head?, y.1 = k ∨ ∃ z ∈ m.head?, y.1 = z.1 := by
  cases m with
  | nil =>
    intro y hy
    simp [csInsert] at hy
    subst hy
    exact Or.inl rfl
  | cons hd rest =>
    obtain ⟨k', v'⟩ := hd
    intro y hy
    by_cases hlt : strLt k k' = true
    · simp [csInsert, hlt] at hy
      subst hy
      exact Or.inl rfl
    · by_cases heq : k = k'
      · subst heq
        simp [csInsert, strLt_irrefl] at hy
        subst hy
        exact Or.inl rfl
      · simp [csInsert, hlt, heq] at hy
        subst hy
        exact Or.inr ⟨(k', v'), by simp⟩

theorem CSWF_csInsert (k : String) (v : ConfigSettingValue) :
    ∀ m : CSMap, CSWF m → CSWF (csInsert k v m) := by
  intro m
  induction m with
  | nil => intro _; simp [csInsert, CSWF]
  | cons hd rest ih =>
    intro hwf
    obtain ⟨k', v'⟩ := hd
    rw [CSWF, List.chain'_cons'] at hwf
    obtain ⟨hhd, hrest⟩ := hwf
    by_cases hlt : strLt k k' = true
    · rw [CSWF]
      simp only [csInsert, if_pos hlt]
      exact List.chain'_cons.mpr ⟨hlt, List.chain'_cons'.mpr ⟨hhd, hrest⟩⟩
    · by_cases heq : k = k'
      · subst heq
        rw [CSWF]
        simp only [csInsert, strLt_irrefl, Bool.false_eq_true, if_false, if_pos rfl]
        exact List.chain'_cons'.mpr ⟨fun y hy => hhd y hy, hrest⟩
      · have hk'k : strLt k' k = true := by
          rcases strLt_tri k k' with h | h | h
          · exact absurd h hlt
          · exact absurd h heq
          · exact h
        rw [CSWF]
        simp only [csInsert, if_neg hlt, if_neg heq]
        refine List.chain'_cons'.mpr ⟨?_, ih hrest⟩
        intro y hy
        rcases head_csInsert k v rest y hy with hk | ⟨z, hz, hyz⟩
        · rw [hk]
          exact hk'k
        · rw [hyz]
          exact hhd z hz

/-! ### Merge lemmas -/

theorem CSWF_mergeEntry (m : CSMap) (kv : String × ConfigSettingValue) (h : CSWF m) :
    CSWF (mergeEntry m kv) := by
  unfold mergeEntry
  cases csLookup kv.1 m with
  | none => exact CSWF_csInsert _ _ m h
  | some existing => exact CSWF_csInsert _ _ m h

theorem mem_csKeys_mergeEntry (m : CSMap) (kv : String × ConfigSettingValue) (a : String) :
    a ∈ csKeys (mergeEntry m kv) ↔ a = kv.1 ∨ a ∈ csKeys m := by
  unfold mergeEntry
  cases csLookup kv.1 m with
  | none => exact mem_csKeys_csInsert _ _ _ m
  | some existing => exact mem_csKeys_csInsert _ _ _ m

theorem csMerge_props :
    ∀ (r l : CSMap), CSWF l →
      CSWF (csMerge l r) ∧ (∀ a, a ∈ csKeys (csMerge l r) ↔ a ∈ csKeys l ∨ a ∈ csKeys r) := by
  intro r
  induction r with
  | nil =>
    intro l hl
    exact ⟨hl, by simp [csMerge, csKeys]⟩
  | cons kv r' ih =>
    intro l hl
    have step : csMerge l (kv :: r') = csMerge (mergeEntry l kv) r' := rfl
    obtain ⟨hwf, hmem⟩ := ih (mergeEntry l kv) (CSWF_mergeEntry l kv hl)
    refine ⟨step ▸ hwf, ?_⟩
    intro a
    rw [step, hmem a, mem_csKeys_mergeEntry]
    simp [csKeys]
    tauto

/-! ### Collection lemmas -/

theorem describeOccurrences_eq_none {o : List String} (h : describeOccurrences o = none) :
    o = [] := by
  match o with
  | [] => rfl
  | [v] => simp [describeOccurrences] at h
  | v :: w :: rest => simp [describeOccurrences] at h

theorem describeOccurrences_eq_str {o : List String} {s : String}
    (h : describeOccurrences o = some (.str s)) : o = [s] := by
  match o with
  | [] => simp [describeOccurrences] at h
  | [v] =>
    simp [describeOccurrences] at h
    rw [h]
  | v :: w :: rest => simp [describeOccurrences] at h

theorem describeOccurrences_eq_list {o : List String} {vs : List String}
    (h : describeOccurrences o = some (.list vs)) : o = vs ∧ 2 ≤ vs.length := by
  match o with
  | [] => simp [describeOccurrences] at h
  | [v] => simp [describeOccurrences] at h
  | v :: w :: rest =>
    simp [describeOccurrences] at h
    rw [← h]
    exact ⟨rfl, by simp⟩

theorem describeOccurrences_long {o : List String} (h : 2 ≤ o.length) :
    describeOccurrences o = some (.list o) := by
  match o with
  | [] => simp at h
  | [v] => simp at h
  | v :: w :: rest => rfl

theorem occurrences_append (k : String) (es : List ConfigSettingEntry) (e : ConfigSettingEntry) :
    occurrences k (es ++ [e]) =
      occurrences k es ++ (if e.key = k then [e.value] else []) := by
  unfold occurrences
  rw [List.filter_append, List.map_append]
  by_cases hk : e.key = k
  · simp [hk]
  · simp [hk]

theorem csLookup_fromIter (es : List ConfigSettingEntry) (k : String) :
    csLookup k (fromIter es) = describeOccurrences (occurrences k es) := by
  induction es using List.reverseRecOn with
  | nil => rfl
  | append_singleton es e ih =>
    have hfold : fromIter (es ++ [e]) = collectEntry (fromIter es) e := by
      unfold fromIter
      rw [List.foldl_append]
      rfl
    rw [hfold, occurrences_append]
    by_cases hk : e.key = k
    · subst hk
      rw [collectEntry]
      cases hl : csLookup e.key (fromIter es) with
      | none =>
        rw [hl] at ih
        have : occurrences e.key es = [] := describeOccurrences_eq_none ih.symm
        rw [this]
        simp [csLookup_csInsert_self, describeOccurrences]
      | some val =>
        rw [hl] at ih
        cases val with
        | str s =>
          have : occurrences e.key es = [s] := describeOccurrences_eq_str ih.symm
          rw [this]
          simp [csLookup_csInsert_self, describeOccurrences]
        | list vs =>
          obtain ⟨hocc, hlen⟩ := describeOccurrences_eq_list ih.symm
          rw [hocc, if_pos rfl, csLookup_csInsert_self]
          rw [describeOccurrences_long (by simp; omega)]
    · rw [collectEntry]
      have hik : ∀ v m, csLookup k (csInsert e.key v m) = csLookup k m :=
        fun v m => csLookup_csInsert_ne e.key k v hk m
      cases hl : csLookup e.key (fromIter es) with
      | none => simp [hik, ih, hk]
      | some val =>
        cases val with
        | str s => simp [hik, ih, hk]
        | list vs => simp [hik, ih, hk]

/-! ### `normalize_absolute_path` lemmas -/

/-- A component that is neither `.` nor `..`. -/
def isPlain (c : Component) : Prop :=
  c = Component.rootDir ∨ ∃ s, c = Component.normal s

theorem popComponent_some {p : RPath} (h1 : p ≠ []) (h2 : p ≠ [Component.rootDir]) :
    popComponent p = some p.dropLast := by
  match p with
  | [] => exact absurd rfl h1
  | [Component.rootDir] => exact absurd rfl h2
  | [Component.curDir] => rfl
  | [Component.parentDir] => rfl
  | [Component.normal s] => rfl
  | a :: b :: rest => cases a <;> rfl

theorem popComponent_dropLast : ∀ {p q : RPath}, popComponent p = some q → q = p.dropLast := by
  intro p q h
  match p with
  | [] => simp [popComponent] at h
  | [c] => cases c <;> simp_all [popComponent]
  | a :: b :: rest => cases a <;> simp_all [popComponent]

theorem mem_dropLast {α : Type _} {a : α} : ∀ {l : List α}, a ∈ l.dropLast → a ∈ l := by
  intro l
  induction l with
  | nil => intro h; simp at h
  | cons x xs ih =>
    intro h
    cases xs with
    | nil => simp at h
    | cons y ys =>
      rw [List.dropLast_cons₂, List.mem_cons] at h
      rcases h with h | h
      · exact h ▸ List.mem_cons_self x _
      · exact List.mem_cons_of_mem x (ih h)

theorem normalizeAbsGo_plain :
    ∀ (rest : List Component) (ret out : RPath),
      (∀ c ∈ ret, isPlain c) → normalizeAbsGo ret rest = .ok out → ∀ c ∈ out, isPlain c := by
  intro rest
  induction rest with
  | nil =>
    intro ret out hret h
    rw [normalizeAbsGo] at h
    injection h with h
    exact h ▸ hret
  | cons c rest ih =>
    intro ret out hret h
    cases c with
    | rootDir =>
      refine ih _ out ?_ h
      intro c hc
      simp [pushComponent] at hc
      exact hc ▸ Or.inl rfl
    | curDir => exact ih _ out hret h
    | parentDir =>
      rw [normalizeAbsGo] at h
      cases hp : popComponent ret with
      | none => rw [hp] at h; exact absurd h (by simp)
      | some ret' =>
        rw [hp] at h
        refine ih ret' out ?_ h
        have hdrop : ret' = ret.dropLast := popComponent_dropLast hp
        intro c hc
        exact hret c (mem_dropLast (hdrop ▸ hc))
    | normal s =>
      refine ih _ out ?_ h
      intro c hc
      simp [pushComponent] at hc
      rcases hc with hc | hc
      · exact hret c hc
      · exact hc ▸ Or.inr ⟨s, rfl⟩

theorem dropLast_append_singleton {α : Type _} (A : List α) :
    ∀ (B : List α) (b : α), (A ++ (B ++ [b])).dropLast = A ++ B := by
  intro B b
  rw [← List.append_assoc, List.dropLast_concat]

theorem normalizeAbsGo_error_iff :
    ∀ (rest : List Component) (root? : Bool) (ns : List String),
      (normalizeAbsGo ((if root? then [Component.rootDir] else []) ++ ns.map Component.normal)
          rest = .error .invalidInput) ↔ escapesRoot.go ns.length rest = true := by
  intro rest
  induction rest with
  | nil =>
    intro root? ns
    simp [normalizeAbsGo, escapesRoot.go]
  | cons c rest ih =>
    intro root? ns
    cases c with
    | rootDir =>
      have h1 : normalizeAbsGo
          ((if root? then [Component.rootDir] else []) ++ ns.map Component.normal)
          (Component.rootDir :: rest) =
          normalizeAbsGo ((if true then [Component.rootDir] else []) ++
            ([] : List String).map Component.normal) rest := by
        simp [normalizeAbsGo, pushComponent]
      rw [h1, ih true []]
      simp [escapesRoot.go]
    | curDir =>
      have h1 : normalizeAbsGo
          ((if root? then [Component.rootDir] else []) ++ ns.map Component.normal)
          (Component.curDir :: rest) =
          normalizeAbsGo ((if root? then [Component.rootDir] else []) ++
            ns.map Component.normal) rest := by
        simp [normalizeAbsGo]
      rw [h1, ih root? ns]
      simp [escapesRoot.go]
    | normal s =>
      have h1 : normalizeAbsGo
          ((if root? then [Component.rootDir] else []) ++ ns.map Component.normal)
          (Component.normal s :: rest) =
          normalizeAbsGo ((if root? then [Component.rootDir] else []) ++
            (ns ++ [s]).map Component.normal) rest := by
        simp [normalizeAbsGo, pushComponent]
      rw [h1, ih root? (ns ++ [s])]
      simp [escapesRoot.go]
    | parentDir =>
      rcases List.eq_nil_or_concat ns with hns | ⟨ns', last, hsplit⟩
      · subst hns
        have hpop : popComponent ((if root? then [Component.rootDir] else []) ++
            ([] : List String).map Component.normal) = none := by
          cases root? <;> rfl
        rw [normalizeAbsGo, hpop]
        simp [escapesRoot.go]
      · rw [List.concat_eq_append] at hsplit
        have hne1 : ((if root? then [Component.rootDir] else []) ++
            ns.map Component.normal) ≠ [] := by
          rw [hsplit]
          cases root? <;> simp
        have hne2 : ((if root? then [Component.rootDir] else []) ++
            ns.map Component.normal) ≠ [Component.rootDir] := by
          rw [hsplit, List.map_append]
          cases root? <;> cases ns' <;> simp
        have hpop : popComponent ((if root? then [Component.rootDir] else []) ++
            ns.map Component.normal) =
            some ((if root? then [Component.rootDir] else []) ++ ns'.map Component.normal) := by
          rw [popComponent_some hne1 hne2, hsplit, List.map_append]
          simp only [List.map_cons, List.map_nil]
          rw [dropLast_append_singleton]
        rw [normalizeAbsGo, hpop, ih root? ns']
        have hlen : ns.length = ns'.length + 1 := by rw [hsplit]; simp
        rw [hlen]
        simp [escapesRoot.go]

/-! ### `relative_to` lemmas -/

theorem mem_ancestorsFuel :
    ∀ (n : Nat) (p c : RPath), c ∈ ancestorsFuel n p →
      ∃ k, k ≤ p.length ∧ c = p.take k ∧ (isAbsolute p = true → 1 ≤ k) := by
  intro n
  induction n with
  | zero =>
    intro p c hc
    simp [ancestorsFuel] at hc
    refine ⟨p.length, le_refl _, by rw [hc, List.take_length], ?_⟩
    intro habs
    rw [isAbsolute] at habs
    cases p with
    | nil => simp at habs
    | cons x xs => simp
  | succ n ih =>
    intro p c hc
    rw [ancestorsFuel] at hc
    rcases List.mem_cons.mp hc with hc | hc
    · refine ⟨p.length, le_refl _, by rw [hc, List.take_length], ?_⟩
      intro habs
      rw [isAbsolute] at habs
      cases p with
      | nil => simp at habs
      | cons x xs => simp
    · cases hp : popComponent p with
      | none => rw [hp] at hc; simp at hc
      | some q =>
        rw [hp] at hc
        obtain ⟨k, hk, hck, habs⟩ := ih q c hc
        have hq : q = p.dropLast := popComponent_dropLast hp
        have hpne : p ≠ [] := by
          intro hnil
          rw [hnil] at hp
          simp [popComponent] at hp
        have hql : q.length = p.length - 1 := by rw [hq, List.length_dropLast]
        refine ⟨k, by omega, ?_, ?_⟩
        · rw [hck, hq, List.dropLast_eq_take, List.take_take]
          congr 1
          omega
        · intro hpabs
          apply habs
          rw [isAbsolute] at hpabs ⊢
          cases p with
          | nil => simp at hpabs
          | cons x xs =>
            simp at hpabs
            cases xs with
            | nil =>
              rw [hpabs] at hp
              simp [popComponent] at hp
            | cons y ys =>
              rw [hq, hpabs]
              simp [List.dropLast_cons₂]

theorem mem_ancestors {b c : RPath} (hc : c ∈ ancestors b) :
    ∃ k, k ≤ b.length ∧ c = b.take k ∧ (isAbsolute b = true → 1 ≤ k) :=
  mem_ancestorsFuel b.length b c hc

theorem stripPref_eq_append :
    ∀ (b p st : RPath), stripPref p b = some st → p = b ++ st := by
  intro b
  induction b with
  | nil =>
    intro p st h
    cases p with
    | nil =>
      simp [stripPref] at h
      simp [h]
    | cons c cs =>
      simp [stripPref] at h
      simpa using h
  | cons d ds ih =>
    intro p st h
    cases p with
    | nil => simp [stripPref] at h
    | cons c cs =>
      rw [stripPref] at h
      by_cases hcd : c = d
      · rw [if_pos hcd] at h
        rw [hcd, List.cons_append]
        exact congrArg _ (ih cs st h)
      · rw [if_neg hcd] at h
        exact absurd h (by simp)

theorem foldl_normals (ns : List String) :
    ∀ acc : RPath, List.foldl normalizedStep acc (ns.map Component.normal) =
      acc ++ ns.map Component.normal := by
  induction ns with
  | nil => intro acc; simp
  | cons s ss ih =>
    intro acc
    simp only [List.map_cons, List.foldl_cons]
    rw [show normalizedStep acc (Component.normal s) = acc ++ [Component.normal s] from rfl]
    rw [ih]
    simp

theorem foldl_parents (i : Nat) :
    ∀ (A : RPath), (A = [] ∨ A = [Component.rootDir]) → ∀ j : Nat,
      List.foldl normalizedStep (A ++ upPath j) (upPath i) = A ++ upPath (j + i) := by
  induction i with
  | zero => intro A _ j; simp [upPath]
  | succ i ih =>
    intro A hA j
    rw [show upPath (i + 1) = Component.parentDir :: upPath i from by
      rw [upPath, upPath, List.replicate_succ]]
    rw [List.foldl_cons]
    have hstep : normalizedStep (A ++ upPath j) Component.parentDir = A ++ upPath (j + 1) := by
      cases j with
      | zero =>
        rcases hA with hA | hA <;> rw [hA] <;> rfl
      | succ j' =>
        have hsplit : A ++ upPath (j' + 1) = (A ++ upPath j') ++ [Component.parentDir] := by
          rw [upPath, upPath, List.replicate_succ']
          simp
        have hlast : (A ++ upPath (j' + 1)).getLast? = some Component.parentDir := by
          rw [hsplit, List.getLast?_concat]
        simp only [normalizedStep, hlast]
        rw [show upPath (j' + 1 + 1) = upPath (j' + 1) ++ [Component.parentDir] from by
          rw [upPath, upPath, List.replicate_succ']]
        simp
    rw [hstep, ih A hA (j + 1)]
    congr 2
    omega

theorem NFShape_normalized_fix {p : RPath} (h : NFShape p) : normalized p = p := by
  obtain ⟨root?, i, ns, hp⟩ := h
  subst hp
  rw [normalized, List.foldl_append, List.foldl_append]
  have h1 : List.foldl normalizedStep [] (if root? then [Component.rootDir] else []) =
      (if root? then [Component.rootDir] else []) := by
    cases root? <;> rfl
  rw [h1]
  have h2 : List.foldl normalizedStep (if root? then [Component.rootDir] else [])
      (upPath i) = (if root? then [Component.rootDir] else []) ++ upPath i := by
    have := foldl_parents i (if root? then [Component.rootDir] else [])
      (by cases root? <;> simp) 0
    simpa [upPath] using this
  rw [h2, foldl_normals, List.append_assoc]

theorem NFShape_normalizedStep {acc : RPath} (h : NFShape acc) (c : Component) :
    NFShape (normalizedStep acc c) := by
  obtain ⟨root?, i, ns, hacc⟩ := h
  cases c with
  | rootDir => exact ⟨true, 0, [], rfl⟩
  | curDir => exact ⟨root?, i, ns, hacc⟩
  | normal s =>
    refine ⟨root?, i, ns ++ [s], ?_⟩
    rw [show normalizedStep acc (Component.normal s) = acc ++ [Component.normal s] from rfl]
    rw [hacc]
    simp
  | parentDir =>
    rcases List.eq_nil_or_concat ns with hns | ⟨ns', last, hsplit⟩
    · subst hns
      cases i with
      | zero =>
        cases root? with
        | false =>
          refine ⟨false, 1, [], ?_⟩
          rw [hacc]
          rfl
        | true =>
          refine ⟨true, 1, [], ?_⟩
          rw [hacc]
          rfl
      | succ i' =>
        refine ⟨root?, i' + 2, [], ?_⟩
        have hsplit : acc = ((if root? then [Component.rootDir] else []) ++
            upPath i') ++ [Component.parentDir] := by
          rw [hacc]
          simp [upPath, List.replicate_succ']
        have hlast : acc.getLast? = some Component.parentDir := by
          rw [hsplit, List.getLast?_concat]
        simp only [normalizedStep, hlast]
        rw [hacc]
        simp [upPath, List.replicate_succ']
    · rw [List.concat_eq_append] at hsplit
      refine ⟨root?, i, ns', ?_⟩
      have hconc : acc = ((if root? then [Component.rootDir] else []) ++ upPath i ++
          List.map Component.normal ns') ++ [Component.normal last] := by
        rw [hacc, hsplit]
        simp
      have hlast : acc.getLast? = some (Component.normal last) := by
        rw [hconc, List.getLast?_concat]
      simp only [normalizedStep, hlast]
      rw [hconc, List.dropLast_concat]

theorem NFShape_foldl :
    ∀ (p : List Component) (acc : RPath), NFShape acc →
      NFShape (List.foldl normalizedStep acc p) := by
  intro p
  induction p with
  | nil => intro acc h; exact h
  | cons c rest ih =>
    intro acc h
    exact ih _ (NFShape_normalizedStep h c)

theorem NFShape_normalized (p : RPath) : NFShape (normalized p) :=
  NFShape_foldl p [] ⟨false, 0, [], rfl⟩

theorem all_normal_exists {l : List Component}
    (h : ∀ c ∈ l, ∃ s, c = Component.normal s) :
    ∃ ns : List String, l = ns.map Component.normal := by
  induction l with
  | nil => exact ⟨[], rfl⟩
  | cons c rest ih =>
    obtain ⟨s, hs⟩ := h c (by simp)
    obtain ⟨ns, hns⟩ := ih (fun c hc => h c (List.mem_cons_of_mem _ hc))
    exact ⟨s :: ns, by rw [hs, hns]; rfl⟩

theorem NFShape_normalizePath {p : RPath} (hw : WFPath p = true) :
    NFShape (normalizePath p) := by
  rw [normalizePath]
  by_cases hc : isClean p = true
  · rw [if_pos hc]
    cases p with
    | nil => exact ⟨false, 0, [], rfl⟩
    | cons c rest =>
      rw [WFPath] at hw
      simp only [Bool.and_eq_true, List.all_eq_true] at hw
      obtain ⟨htail, hall⟩ := hw
      rw [isClean] at hc
      simp only [List.all_eq_true] at hc
      have hrest : ∀ x ∈ rest, ∃ s, x = Component.normal s := by
        intro x hx
        have h1 := htail x (by simpa using hx)
        have h2 := hc x (List.mem_cons_of_mem _ hx)
        cases x with
        | rootDir => simp at h1
        | curDir => simp at h1
        | parentDir => simp at h2
        | normal s => exact ⟨s, rfl⟩
      obtain ⟨ns, hns⟩ := all_normal_exists hrest
      have hhead := hc c (by simp)
      cases c with
      | rootDir => exact ⟨true, 0, ns, by rw [hns]; rfl⟩
      | curDir => simp at hhead
      | parentDir => simp at hhead
      | normal s => exact ⟨false, 0, s :: ns, by rw [hns]; rfl⟩
  · rw [if_neg hc]
    exact NFShape_normalized p

theorem NFShape_normalizePath_fix {p : RPath} (h : NFShape p) : normalizePath p = p := by
  rw [normalizePath]
  by_cases hc : isClean p = true
  · rw [if_pos hc]
  · rw [if_neg hc]
    exact NFShape_normalized_fix h

theorem normalized_eq_normalizePath {p : RPath} (hw : WFPath p = true) :
    normalized p = normalizePath p := by
  rw [normalizePath]
  by_cases hc : isClean p = true
  · rw [if_pos hc]
    exact NFShape_normalized_fix (by
      have := NFShape_normalizePath hw
      rwa [normalizePath, if_pos hc] at this)
  · rw [if_neg hc]

theorem foldl_pops :
    ∀ (ns : List String) (A : RPath),
      List.foldl normalizedStep (A ++ ns.map Component.normal) (upPath ns.length) = A := by
  intro ns
  induction ns using List.reverseRecOn with
  | nil => intro A; simp [upPath]
  | append_singleton ss s ih =>
    intro A
    rw [show upPath (ss ++ [s]).length = Component.parentDir :: upPath ss.length from by
      rw [upPath, upPath]
      simp [List.replicate_succ]]
    rw [List.foldl_cons]
    have hconc : A ++ (ss ++ [s]).map Component.normal =
        (A ++ ss.map Component.normal) ++ [Component.normal s] := by
      simp
    have hlast : (A ++ (ss ++ [s]).map Component.normal).getLast? =
        some (Component.normal s) := by
      rw [hconc, List.getLast?_concat]
    simp only [normalizedStep, hlast]
    rw [hconc, List.dropLast_concat]
    exact ih A

theorem parentFree_NFShape {b : RPath} (hb : NFShape b)
    (hnp : ∀ c ∈ b, c ≠ Component.parentDir) :
    ∃ (root? : Bool) (ns : List String),
      b = (if root? then [Component.rootDir] else []) ++ ns.map Component.normal := by
  obtain ⟨root?, i, ns, hshape⟩ := hb
  cases i with
  | zero => exact ⟨root?, ns, by rw [hshape]; simp [upPath]⟩
  | succ i' =>
    exfalso
    refine hnp Component.parentDir ?_ rfl
    rw [hshape]
    refine List.mem_append_left _ (List.mem_append_right _ ?_)
    rw [upPath, List.mem_replicate]
    exact ⟨by omega, rfl⟩

theorem NFShape_drop_not_absolute {p : RPath} (hp : NFShape p) {k : Nat} (hk : 1 ≤ k) :
    isAbsolute (p.drop k) = false := by
  obtain ⟨root?, i, ns, hshape⟩ := hp
  by_contra habs
  have habs' : isAbsolute (p.drop k) = true := by
    cases h : isAbsolute (p.drop k)
    · exact absurd h habs
    · rfl
  rw [isAbsolute] at habs'
  have hmem : Component.rootDir ∈ p.drop k := by
    cases hd : p.drop k with
    | nil => rw [hd] at habs'; simp at habs'
    | cons x xs =>
      rw [hd] at habs'
      simp at habs'
      simp [habs']
  have hnotail : ∀ c ∈ upPath i ++ ns.map Component.normal, c ≠ Component.rootDir := by
    intro c hc
    rcases List.mem_append.mp hc with h | h
    · rw [upPath, List.mem_replicate] at h
      rw [h.2]
      simp
    · obtain ⟨s, _, hs⟩ := List.mem_map.mp h
      rw [← hs]
      simp
  cases root? with
  | true =>
    have hptail : p.drop 1 = upPath i ++ ns.map Component.normal := by
      rw [hshape]
      simp
    have hmem1 : Component.rootDir ∈ p.drop 1 := by
      have hdd : p.drop k = (p.drop 1).drop (k - 1) := by
        rw [List.drop_drop]
        congr 1
        omega
      exact List.drop_subset _ _ (hdd ▸ hmem)
    exact hnotail Component.rootDir (hptail ▸ hmem1) rfl
  | false =>
    have hcp : Component.rootDir ∈ p := List.drop_subset _ _ hmem
    rw [hshape] at hcp
    simp only [Bool.false_eq_true, if_false, List.nil_append] at hcp
    exact hnotail Component.rootDir hcp rfl

theorem foldl_take_drop {p : RPath} (hp : NFShape p) (k : Nat)
    (hcf : ∀ c ∈ p.take k, c ≠ Component.parentDir) :
    List.foldl normalizedStep (p.take k) (p.drop k) = p := by
  obtain ⟨root?, i, ns, hshape⟩ := hp
  cases k with
  | zero =>
    rw [List.take_zero, List.drop_zero]
    exact NFShape_normalized_fix ⟨root?, i, ns, hshape⟩
  | succ k' =>
    cases root? with
    | false =>
      simp only [if_neg (by simp : ¬False), Bool.false_eq_true] at hshape
      cases i with
      | succ i' =>
        exfalso
        refine hcf Component.parentDir ?_ rfl
        have hhead : p = Component.parentDir :: (upPath i' ++ ns.map Component.normal) := by
          rw [hshape]
          simp [upPath, List.replicate_succ]
        rw [hhead, List.take_succ_cons]
        simp
      | zero =>
        have hp' : p = ns.map Component.normal := by
          rw [hshape]
          simp [upPath]
        rw [hp', ← List.map_take, ← List.map_drop, foldl_normals, ← List.map_append,
          List.take_append_drop]
    | true =>
      simp only [if_pos trivial] at hshape
      have hp' : p = Component.rootDir :: (upPath i ++ ns.map Component.normal) := by
        rw [hshape]
        simp
      cases k' with
      | zero =>
        rw [hp', List.take_succ_cons, List.take_zero, List.drop_succ_cons, List.drop_zero,
          List.foldl_append]
        have h1 : List.foldl normalizedStep [Component.rootDir] (upPath i) =
            [Component.rootDir] ++ upPath i := by
          have := foldl_parents i [Component.rootDir] (Or.inr rfl) 0
          simpa [upPath] using this
        rw [h1, foldl_normals]
        simp
      | succ k'' =>
        cases i with
        | succ i' =>
          exfalso
          refine hcf Component.parentDir ?_ rfl
          rw [hp', List.take_succ_cons]
          have : upPath (i' + 1) ++ ns.map Component.normal =
              Component.parentDir :: (upPath i' ++ ns.map Component.normal) := by
            simp [upPath, List.replicate_succ]
          rw [this, List.take_succ_cons]
          simp
        | zero =>
          have hp'' : p = Component.rootDir :: ns.map Component.normal := by
            rw [hp']
            simp [upPath]
          rw [hp'', List.take_succ_cons, List.drop_succ_cons, ← List.map_take, ← List.map_drop]
          have hacc : Component.rootDir :: List.map Component.normal (ns.take (k'' + 1)) =
              [Component.rootDir] ++ List.map Component.normal (ns.take (k'' + 1)) := rfl
          rw [hacc, foldl_normals, List.append_assoc, ← List.map_append, List.take_append_drop]
          rfl

/-- C7 (counterexample): the round-trip law fails as universally stated.
For `path = "a"` and `base = ".."`, `relative_to` succeeds with `"../a"`,
but `base.join("../a")` lexically normalizes to `"../../a"` while `path`
normalizes to `"a"`. -/
theorem relativeTo_roundtrip_cex :
    relativeTo [Component.normal "a"] [Component.parentDir] =
        .ok [Component.parentDir, Component.normal "a"] ∧
      normalizePath (pathJoin [Component.parentDir]
          [Component.parentDir, Component.normal "a"]) ≠
        normalizePath [Component.normal "a"] := by
  constructor
  · decide
  · decide

/-- C7 (amended): for well-formed component lists `path` and `base` such
that the lexical normalization of `base` contains no `..` component, a
successful `relative_to(path, base) = r` satisfies
`normalize(base.join(r)) = normalize(path)` (`path.rs:288-319`). -/
theorem relativeTo_roundtrip_amended (path base r : RPath)
    (hwP : WFPath path = true) (hwB : WFPath base = true)
    (hnp : Component.parentDir ∉ normalizePath base)
    (h : relativeTo path base = .ok r) :
    normalizePath (pathJoin base r) = normalizePath path := by
  rw [relativeTo] at h
  cases hfind : (ancestors (normalizePath base)).findSome? (fun ancestor =>
      (stripPref (normalizePath path) ancestor).map
        (fun stripped => (stripped, ancestor))) with
  | none =>
    rw [hfind] at h
    exact absurd h (by simp)
  | some pr =>
    obtain ⟨st, anc⟩ := pr
    rw [hfind] at h
    injection h with h
    obtain ⟨anc1, hanc1, hmap⟩ := List.exists_of_findSome?_eq_some hfind
    obtain ⟨st1, hstrip1, hpair⟩ := Option.map_eq_some'.mp hmap
    have hst : st1 = st := by injection hpair
    have han : anc1 = anc := by injection hpair
    rw [hst, han] at hstrip1
    rw [han] at hanc1
    have hps : normalizePath path = anc ++ st :=
      stripPref_eq_append anc (normalizePath path) st hstrip1
    obtain ⟨k, hkle, hcomk, habsk⟩ := mem_ancestors hanc1
    have hNFp : NFShape (normalizePath path) := NFShape_normalizePath hwP
    have hNFb : NFShape (normalizePath base) := NFShape_normalizePath hwB
    have hnp1 : ∀ c ∈ normalizePath base, c ≠ Component.parentDir :=
      fun c hc he => hnp (he ▸ hc)
    have hlencom : anc.length = k := by
      rw [hcomk, List.length_take]
      omega
    have hcom_take : (normalizePath path).take k = anc := by
      rw [hps, ← hlencom, List.take_left]
    have hstr_drop : (normalizePath path).drop k = st := by
      rw [hps, ← hlencom, List.drop_left]
    have hcomPF : ∀ c ∈ anc, c ≠ Component.parentDir := by
      intro c hc
      refine hnp1 c ?_
      rw [hcomk] at hc
      exact List.take_subset k (normalizePath base) hc
    by_cases habsS : isAbsolute st = true
    · have hk0 : k = 0 := by
        by_contra hk
        have h1k : 1 ≤ k := by omega
        have hf := NFShape_drop_not_absolute hNFp h1k
        rw [hstr_drop] at hf
        rw [hf] at habsS
        exact absurd habsS (by simp)
      have hanc_nil : anc = [] := by
        rw [hcomk, hk0, List.take_zero]
      have hpstr : normalizePath path = st := by
        rw [hps, hanc_nil, List.nil_append]
      have hr : r = st := by
        rw [← h, pathJoin, if_pos habsS]
      rw [hr, pathJoin, if_pos habsS, ← hpstr]
      exact NFShape_normalizePath_fix hNFp
    · have habsS2 : isAbsolute st = false := by
        cases hx : isAbsolute st
        · rfl
        · exact absurd hx habsS
      have hr : r = upPath ((normalizePath base).length - anc.length) ++ st := by
        rw [← h, pathJoin, if_neg habsS]
      obtain ⟨rootB, nsb, hbshape⟩ := parentFree_NFShape hNFb hnp1
      have hms : ∃ ms : List String,
          (normalizePath base).drop k = ms.map Component.normal ∧
            ms.length = (normalizePath base).length - k := by
        cases rootB with
        | false =>
          simp only [Bool.false_eq_true, if_false, List.nil_append] at hbshape
          refine ⟨nsb.drop k, ?_, ?_⟩
          · rw [hbshape, List.map_drop]
          · rw [hbshape]
            simp
        | true =>
          have hk1 : 1 ≤ k := by
            apply habsk
            rw [isAbsolute, hbshape]
            simp
          simp only [if_pos trivial] at hbshape
          refine ⟨nsb.drop (k - 1), ?_, ?_⟩
          · rw [hbshape, List.map_drop]
            have hdk : ([Component.rootDir] ++ nsb.map Component.normal).drop k =
                (nsb.map Component.normal).drop (k - 1) := by
              cases k with
              | zero => omega
              | succ k2 => simp
            rw [hdk]
          · rw [hbshape]
            simp
            omega
      obtain ⟨ms, hmsdrop, hmslen⟩ := hms
      have hsplitb : normalizePath base = anc ++ ms.map Component.normal := by
        rw [← hmsdrop, hcomk, List.take_append_drop]
      have hrabs : isAbsolute r = false := by
        rw [hr]
        cases hL : (normalizePath base).length - anc.length with
        | zero => simpa [upPath] using habsS2
        | succ L2 =>
          rw [upPath, List.replicate_succ]
          rfl
      have hjoin : pathJoin base r = base ++ r := by
        rw [pathJoin, hrabs]
        simp
      rw [hjoin]
      by_cases hclean : isClean (base ++ r) = true
      · have hnp2 : Component.parentDir ∉ base ++ r := by
          intro hmem
          rw [isClean] at hclean
          simp only [List.all_eq_true] at hclean
          exact absurd (hclean _ hmem) (by simp)
        have hL0 : (normalizePath base).length - anc.length = 0 := by
          by_contra hL
          refine hnp2 ?_
          refine List.mem_append_right base ?_
          rw [hr]
          refine List.mem_append_left _ ?_
          rw [upPath, List.mem_replicate]
          exact ⟨hL, rfl⟩
        have hkfull : k = (normalizePath base).length := by
          rw [hlencom] at hL0
          omega
        have hanc_full : anc = normalizePath base := by
          rw [hcomk, hkfull, List.take_length]
        have hcleanb : isClean base = true := by
          rw [isClean] at hclean ⊢
          simp only [List.all_eq_true] at hclean ⊢
          intro c hc
          exact hclean c (List.mem_append_left r hc)
        have hbase2 : normalizePath base = base := by
          rw [normalizePath, if_pos hcleanb]
        have hrstr : r = st := by
          rw [hr, hL0]
          simp [upPath]
        rw [normalizePath, if_pos hclean, hrstr, hps, hanc_full, hbase2]
      · rw [normalizePath, if_neg hclean]
        have hcong : normalized (base ++ r) =
            List.foldl normalizedStep (normalized base) r := by
          rw [normalized, normalized, List.foldl_append]
        rw [hcong, normalized_eq_normalizePath hwB, hr, List.foldl_append]
        have hpops : List.foldl normalizedStep (normalizePath base)
            (upPath ((normalizePath base).length - anc.length)) = anc := by
          have hlev : (normalizePath base).length - anc.length = ms.length := by
            rw [hlencom, hmslen]
          rw [hlev]
          conv_lhs => rw [hsplitb]
          exact foldl_pops ms anc
        rw [hpops, ← hcom_take, ← hstr_drop]
        exact foldl_take_drop hNFp k (by rw [hcom_take]; exact hcomPF)

/-- C7 (witness for the amended theorem): a concrete successful
`relative_to` call satisfying the hypotheses and the round-trip law. -/
theorem relativeTo_roundtrip_amended_witness :
    WFPath [Component.rootDir, Component.normal "home", Component.normal "x"] = true ∧
      WFPath [Component.rootDir, Component.normal "home", Component.normal "y"] = true ∧
      Component.parentDir ∉
        normalizePath [Component.rootDir, Component.normal "home", Component.normal "y"] ∧
      relativeTo [Component.rootDir, Component.normal "home", Component.normal "x"]
          [Component.rootDir, Component.normal "home", Component.normal "y"] =
        .ok [Component.parentDir, Component.normal "x"] ∧
      normalizePath (pathJoin
          [Component.rootDir, Component.normal "home", Component.normal "y"]
          [Component.parentDir, Component.normal "x"]) =
        normalizePath [Component.rootDir, Component.normal "home", Component.normal "x"] :=
  ⟨by decide, by decide, by decide, by decide,
    relativeTo_roundtrip_amended
      [Component.rootDir, Component.normal "home", Component.normal "x"]
      [Component.rootDir, Component.normal "home", Component.normal "y"]
      [Component.parentDir, Component.normal "x"]
      (by decide) (by decide) (by decide) (by decide)⟩

/-! ### Remaining helper lemmas -/

theorem exceptBind_ok {ε α β : Type _} (a : α) (f : α → Except ε β) :
    (Except.ok (ε := ε) a >>= f) = f a := rfl

theorem exceptBind_error {ε α β : Type _} (e : ε) (f : α → Except ε β) :
    (Except.error (α := α) e >>= f) = Except.error (α := β) e := rfl

theorem pipeline_filterMap (parse : String → PythonRequest) :
    ∀ l : List String,
      (((l.filter (fun line => !(isSkippedLine line))).map parse).filter
          (fun r => !(r.isExecutableName))) =
        l.filterMap (fun line =>
          if isSkippedLine line then none
          else
            match parse line with
            | .executableName _ => none
            | r => some r) := by
  intro l
  induction l with
  | nil => rfl
  | cons x rest ih =>
    by_cases hs : isSkippedLine x = true
    · have h1 : List.filter (fun line => !(isSkippedLine line)) (x :: rest) =
          List.filter (fun line => !(isSkippedLine line)) rest := by
        rw [List.filter_cons]
        simp [hs]
      have h2 : (if isSkippedLine x then none
          else
            match parse x with
            | PythonRequest.executableName _ => none
            | r => some r) = (none : Option PythonRequest) := by
        rw [if_pos hs]
      rw [h1, List.filterMap_cons, h2]
      exact ih
    · have h1 : List.filter (fun line => !(isSkippedLine line)) (x :: rest) =
          x :: List.filter (fun line => !(isSkippedLine line)) rest := by
        rw [List.filter_cons]
        simp [hs]
      cases hp : parse x with
      | executableName n =>
        have h2 : (if isSkippedLine x then none
            else
              match parse x with
              | PythonRequest.executableName _ => none
              | r => some r) = (none : Option PythonRequest) := by
          rw [if_neg hs, hp]
        have h3 : (!(parse x).isExecutableName) = false := by
          rw [hp]
          rfl
        rw [h1, List.map_cons, List.filter_cons, h3, List.filterMap_cons, h2]
        simp only [Bool.false_eq_true, if_false]
        exact ih
      | other sreq =>
        have h2 : (if isSkippedLine x then none
            else
              match parse x with
              | PythonRequest.executableName _ => none
              | r => some r) = some (PythonRequest.other sreq) := by
          rw [if_neg hs, hp]
        have h3 : (!(parse x).isExecutableName) = true := by
          rw [hp]
          rfl
        rw [h1, List.map_cons, List.filter_cons, h3, List.filterMap_cons, h2, hp]
        simp [ih]

theorem containsSub_append_right (pat : List Char) :
    ∀ (a b : List Char), containsSub b pat = true → containsSub (a ++ b) pat = true := by
  intro a
  induction a with
  | nil => intro b h; simpa using h
  | cons c cs ih =>
    intro b h
    rw [List.cons_append, containsSub]
    rw [ih b h]
    simp

theorem strContains_append_right {s t pat : String} (h : strContains t pat = true) :
    strContains (s ++ t) pat = true := by
  rw [strContains, String.data_append]
  exact containsSub_append_right pat.data s.data t.data h

/-! ### Claim theorems -/

/-- C1: when `stream_wheel` or `download_wheel` finds a cached
`(policy, archive)` sidecar whose archive directory is gone from the cache
or whose stored digests fail the caller's hash policy, it does not return
the stale archive: it bypasses the cache, re-runs the download callback
(one more download), persists a fresh archive that is on disk afterwards,
and rewrites the pointer to it (`distribution_database.rs:645-667` and
`812-832`). -/
theorem stream_wheel_stale_pointer_refreshes (hasDigests : Archive → Bool)
    (digests : List Nat) (s : CacheState) (a0 : Archive)
    (hwf : WFCache s = true) (hside : s.sidecar = some a0)
    (hstale : hasDigests a0 = false ∨ s.disk.contains a0.id = false) :
    streamWheel hasDigests true true digests s =
        .ok ({ nextId := s.nextId + 1, disk := s.nextId :: s.disk,
               sidecar := some { id := s.nextId, digests := digests },
               downloads := s.downloads + 1 },
          { id := s.nextId, digests := digests }) ∧
      downloadWheel hasDigests true true digests s =
        .ok ({ nextId := s.nextId + 1, disk := s.nextId :: s.disk,
               sidecar := some { id := s.nextId, digests := digests },
               downloads := s.downloads + 1 },
          { id := s.nextId, digests := digests }) ∧
      a0.id ≠ s.nextId ∧
      (s.nextId :: s.disk).contains s.nextId = true := by
  have hfilter : (hasDigests a0 && s.disk.contains a0.id) = false := by
    rcases hstale with h | h
    · rw [h, Bool.false_and]
    · rw [h, Bool.and_false]
  have hne : a0.id ≠ s.nextId := by
    rw [WFCache] at hwf
    simp only [Bool.and_eq_true] at hwf
    have h2 := hwf.2
    rw [hside] at h2
    simp only [Option.all_some, decide_eq_true_eq] at h2
    omega
  have hg : getSerde true true digests s = .ok (s, a0) := by
    unfold getSerde
    rw [hside]
    rfl
  refine ⟨?_, ?_, hne, by simp⟩
  · rw [streamWheel, hg, exceptBind_ok]
    simp only [hfilter, Bool.false_eq_true, if_false]
    rfl
  · rw [downloadWheel, hg, exceptBind_ok]
    simp only [hfilter, Bool.false_eq_true, if_false]
    rfl

/-- C1 (witness): a concrete stale sidecar — pointer to archive id 1 whose
directory is gone — is refreshed to a fresh archive id 4 on disk, with the
pointer rewritten and one more download run. -/
theorem stream_wheel_stale_pointer_refreshes_witness :
    streamWheel alwaysHasDigests true true [9]
        { nextId := 4, disk := [2, 3], sidecar := some { id := 1, digests := [] },
          downloads := 0 } =
      .ok ({ nextId := 5, disk := [4, 2, 3],
             sidecar := some { id := 4, digests := [9] }, downloads := 1 },
        { id := 4, digests := [9] }) :=
  (stream_wheel_stale_pointer_refreshes alwaysHasDigests [9]
    { nextId := 4, disk := [2, 3], sidecar := some { id := 1, digests := [] },
      downloads := 0 }
    { id := 1, digests := [] } (by decide) (by decide) (Or.inr (by decide))).1

/-- C2 (counterexample): in `get_wheel`'s direct-URL arm a streaming-failed
client error is **not** recovered: the call propagates the error instead of
falling back to `download_wheel` (`distribution_database.rs:294-324`
matches only `Error::Client` errors that are streaming-unsupported). -/
theorem get_wheel_direct_url_streaming_failed_cex :
    getWheel .directUrl (.error (.client { unsupported := false, failed := true }))
        (.ok { id := 7, digests := [] }) =
      .error (.client { unsupported := false, failed := true }) ∧
      getWheel .directUrl (.error (.client { unsupported := false, failed := true }))
          (.ok { id := 7, digests := [] }) ≠
        .ok { id := 7, digests := [] } :=
  ⟨by decide, by decide⟩

/-- C2 (amended): `get_wheel` recovers a streaming error by falling back to
`download_wheel` exactly when the registry arm sees an `Extract` error
flagged streaming-unsupported or streaming-failed, or the direct-URL arm
sees a `Client` error flagged streaming-unsupported; every other error
propagates, and a streaming success is returned as-is
(`distribution_database.rs:201-260` and `272-324`). -/
theorem get_wheel_streaming_fallback_amended (v : WheelVariant) (err : UvError)
    (a : Archive) (dl : Except UvError Archive) :
    getWheel v (.error err) dl = (if recoverable v err then dl else .error err) ∧
      getWheel v (.ok a) dl = .ok a := by
  constructor
  · cases v <;> cases err <;> simp [getWheel, recoverable]
  · cases v <;> rfl

/-- C3: `ProjectEnvironment::get_or_init` deletes the target root only when
the root holds a readable `pyvenv.cfg`; a non-empty root without
`pyvenv.cfg` yields `InvalidProjectEnvironmentDir` instead of removal
(`mod.rs:1313-1340`, `1382-1396`). -/
theorem project_env_never_deletes_non_venv (found : Bool) (d : EnvRootState)
    (dryRun : Bool) (o : ProjectEnvOutcome) :
    (getOrInit found d dryRun = .ok (o, true) → d.pyvenvCfgExists = .ok true) ∧
      (found = false → d.rootExists = .ok true → d.pyvenvCfgExists = .ok false →
        d.readDirEmpty = false →
        getOrInit found d dryRun = .error (.invalidProjectEnvironmentDir
          "it is not a compatible environment but cannot be recreated because it is not a virtual environment")) := by
  obtain ⟨re, pe, rde⟩ := d
  constructor
  · intro h
    cases found with
    | true => simp [getOrInit] at h
    | false =>
      cases pe with
      | ok b =>
        cases b with
        | true => rfl
        | false =>
          exfalso
          cases re with
          | ok rb =>
            cases rb <;> cases rde <;> cases dryRun <;>
              simp [getOrInit, computeReplace, exceptBind_ok, exceptBind_error] at h
          | error e =>
            cases dryRun <;>
              simp [getOrInit, computeReplace, exceptBind_ok, exceptBind_error] at h
      | error e =>
        exfalso
        cases re <;> cases dryRun <;>
          simp [getOrInit, computeReplace, exceptBind_ok, exceptBind_error] at h
  · intro hfound hre hpe hrde
    subst hfound
    simp only at hre hpe hrde
    subst hre
    subst hpe
    subst hrde
    simp [getOrInit, computeReplace, exceptBind_ok, exceptBind_error]

/-- C3 (witness): a non-empty root without `pyvenv.cfg` is refused; and a
run that did delete had a readable `pyvenv.cfg`. -/
theorem project_env_never_deletes_non_venv_witness :
    getOrInit false
        { rootExists := .ok true, pyvenvCfgExists := .ok false, readDirEmpty := false }
        false =
      .error (.invalidProjectEnvironmentDir
        "it is not a compatible environment but cannot be recreated because it is not a virtual environment") :=
  (project_env_never_deletes_non_venv false
    { rootExists := .ok true, pyvenvCfgExists := .ok false, readDirEmpty := false }
    false ProjectEnvOutcome.created).2 rfl rfl rfl rfl

/-- C4 (counterexample): `ConfigSettings` is a `BTreeMap`, so the key order
observed on iteration/serialization is sorted, not insertion-based: merging
`{"b": "x"}` (left) with `{"a": "y"}` (right) iterates as `["a", "b"]`, not
as the left operand's keys followed by the right's new keys
(`config_settings.rs:111-113`). -/
theorem config_settings_merge_order_cex :
    csKeys (csMerge [("b", ConfigSettingValue.str "x")]
        [("a", ConfigSettingValue.str "y")]) = ["a", "b"] ∧
      csKeys (csMerge [("b", ConfigSettingValue.str "x")]
          [("a", ConfigSettingValue.str "y")]) ≠
        csKeys [("b", ConfigSettingValue.str "x")] ++
          (csKeys [("a", ConfigSettingValue.str "y")]).filter
            (fun k => !((csKeys [("b", ConfigSettingValue.str "x")]).contains k)) :=
  ⟨by decide, by decide⟩

/-- C4 (amended): `ConfigSettings` keeps its keys in sorted lexicographic
order (the `BTreeMap` iteration order), independent of insertion order, and
the key set of `left.merge(right)` is the union of the two key sets
(`config_settings.rs:111-113`, `154-188`). -/
theorem config_settings_sorted_key_order (l r : CSMap) (a : String)
    (hl : CSWF l) (hr : CSWF r) :
    List.Chain' (fun x y => strLt x y = true) (csKeys (csMerge l r)) ∧
      (a ∈ csKeys (csMerge l r) ↔ a ∈ csKeys l ∨ a ∈ csKeys r) := by
  obtain ⟨hwf, hmem⟩ := csMerge_props r l hl
  refine ⟨?_, hmem a⟩
  rw [csKeys, List.chain'_map]
  exact hwf

/-- C4 (witness): the merged map of the counterexample pair is sorted and
has exactly the union key set. -/
theorem config_settings_sorted_key_order_witness :
    List.Chain' (fun x y => strLt x y = true)
        (csKeys (csMerge [("b", ConfigSettingValue.str "x")]
          [("a", ConfigSettingValue.str "y")])) ∧
      ("a" ∈ csKeys (csMerge [("b", ConfigSettingValue.str "x")]
          [("a", ConfigSettingValue.str "y")]) ↔
        "a" ∈ csKeys [("b", ConfigSettingValue.str "x")] ∨
          "a" ∈ csKeys [("a", ConfigSettingValue.str "y")]) :=
  config_settings_sorted_key_order [("b", ConfigSettingValue.str "x")]
    [("a", ConfigSettingValue.str "y")] "a" (by simp) (by simp)

/-- C5: if `UV_RUN_RECURSION_DEPTH` parses to a depth strictly above the
configured maximum, `run` fails with the recursion message, which names the
`--script` flag; otherwise the child's `UV_RUN_RECURSION_DEPTH` is the
parsed depth plus one (as a `u32`) (`run.rs:100-113`, `1275-1279`,
`1723-1736`). -/
theorem run_recursion_depth_guard (maxDepth : Nat) (envVal : Option String) (d : Nat)
    (hd : readRecursionDepth envVal = .ok d) :
    (maxDepth < d →
      runRecursionGate maxDepth envVal = .error (recursionErrorMessage d maxDepth) ∧
        strContains (recursionErrorMessage d maxDepth) "--script" = true) ∧
      (d ≤ maxDepth →
        runRecursionGate maxDepth envVal = .ok ((d + 1) % 2 ^ 32)) := by
  constructor
  · intro hgt
    constructor
    · rw [runRecursionGate, hd, exceptBind_ok]
      simp only [gt_iff_lt, if_pos hgt]
    · rw [recursionErrorMessage]
      refine strContains_append_right ?_
      decide
  · intro hle
    rw [runRecursionGate, hd, exceptBind_ok]
    have hngt : ¬(d > maxDepth) := by omega
    simp only [gt_iff_lt, if_neg hngt]

/-- C5 (witness): with a limit of 100, depth 101 fails with the message
naming `--script`; depth 100 spawns the child with depth 101. -/
theorem run_recursion_depth_guard_witness :
    readRecursionDepth (some "101") = .ok 101 ∧
      runRecursionGate 100 (some "101") = .error (recursionErrorMessage 101 100) ∧
      strContains (recursionErrorMessage 101 100) "--script" = true ∧
      runRecursionGate 100 (some "100") = .ok 101 := by
  refine ⟨by decide, ?_, ?_, ?_⟩
  · exact ((run_recursion_depth_guard 100 (some "101") 101 (by decide)).1 (by decide)).1
  · exact ((run_recursion_depth_guard 100 (some "101") 101 (by decide)).1 (by decide)).2
  · exact (run_recursion_depth_guard 100 (some "100") 100 (by decide)).2 (by decide)

/-- C6: a successful `normalize_absolute_path` contains no `.` or `..`
components; the function fails — always with kind `InvalidInput` — exactly
when a `..` escapes the root, and in particular `/a/../../c/d` is rejected
(`path.rs:174-207`). -/
theorem normalize_absolute_path_spec (p out : RPath) :
    (normalizeAbsolutePath p = .ok out → ∀ c ∈ out, isPlain c) ∧
      (normalizeAbsolutePath p = .error .invalidInput ↔ escapesRoot p = true) ∧
      normalizeAbsolutePath
          [Component.rootDir, Component.normal "a", Component.parentDir,
            Component.parentDir, Component.normal "c", Component.normal "d"] =
        .error .invalidInput := by
  refine ⟨?_, ?_, by decide⟩
  · intro h
    exact normalizeAbsGo_plain p [] out (by intro c hc; simp at hc) h
  · have h := normalizeAbsGo_error_iff p false []
    simp only [Bool.false_eq_true, if_false, List.map_nil, List.nil_append,
      List.append_nil] at h
    rw [normalizeAbsolutePath, escapesRoot]
    simpa using h

/-- C6 (witness): `/a/./b` normalizes successfully and its first output
component is plain (neither `.` nor `..`). -/
theorem normalize_absolute_path_spec_witness :
    normalizeAbsolutePath
        [Component.rootDir, Component.normal "a", Component.curDir, Component.normal "b"] =
      .ok [Component.rootDir, Component.normal "a", Component.normal "b"] ∧
      isPlain Component.rootDir :=
  ⟨by decide,
    (normalize_absolute_path_spec
        [Component.rootDir, Component.normal "a", Component.curDir, Component.normal "b"]
        [Component.rootDir, Component.normal "a", Component.normal "b"]).1
      (by decide) Component.rootDir (by decide)⟩

/-- C8: collecting `(key, value)` entries inserts a string on a key's first
observation and promotes to a list preserving arrival order afterwards
(the value under every key equals the spec's description of its observed
values); collecting `[("key","v"),("key","v2"),("list","v3"),("list","v4")]`
and serializing via `escape_for_python` yields exactly
`{"key":["v","v2"],"list":["v3","v4"]}` (`config_settings.rs:115-136`,
`150-152`). -/
theorem config_settings_collect_spec (es : List ConfigSettingEntry) (k : String) :
    csLookup k (fromIter es) = describeOccurrences (occurrences k es) ∧
      escapeForPython (fromIter
          [{ key := "key", value := "v" }, { key := "key", value := "v2" },
            { key := "list", value := "v3" }, { key := "list", value := "v4" }]) =
        "\x7b\"key\":[\"v\",\"v2\"],\"list\":[\"v3\",\"v4\"]\x7d" :=
  ⟨csLookup_fromIter es k, by decide⟩

/-- C9: `PythonVersionFile::try_from_path` yields one request per
non-blank, non-`#`-comment line, in file order, except that requests
parsing to a bare executable name are dropped; hence a file whose
non-skipped lines all parse to `ExecutableName` yields an empty version
list (`version_files.rs:161-194`). -/
theorem version_file_parse_spec (parse : String → PythonRequest) (content : String) :
    tryFromPathVersions parse content = specVersionRequests parse content ∧
      (((rustLines content).filter (fun l => !(isSkippedLine l))).all
          (fun l => (parse l).isExecutableName) = true →
        tryFromPathVersions parse content = []) := by
  constructor
  · rw [tryFromPathVersions, specVersionRequests]
    exact pipeline_filterMap parse (rustLines content)
  · intro hall
    rw [tryFromPathVersions]
    rw [List.filter_eq_nil_iff]
    intro r hr
    rw [List.all_eq_true] at hall
    obtain ⟨line, hline, hpl⟩ := List.mem_map.mp hr
    have := hall line hline
    rw [hpl] at this
    simp [this]

/-- C9 (witness): a version file whose only surviving lines are bare
executable names yields an empty list. -/
theorem version_file_parse_spec_witness :
    ((rustLines "pypy\x0a# comment\x0a\x0agraalpy").filter
        (fun l => !(isSkippedLine l))).all
      (fun l => (PythonRequest.executableName l).isExecutableName) = true ∧
      tryFromPathVersions (fun s => PythonRequest.executableName s)
        "pypy\x0a# comment\x0a\x0agraalpy" = [] :=
  ⟨by decide,
    (version_file_parse_spec (fun s => PythonRequest.executableName s)
      "pypy\x0a# comment\x0a\x0agraalpy").2 (by decide)⟩

/-- C10: `RunCommand::from_args` with target `-` reads stdin and fails with
"Cannot run a Python module from stdin" when the module flag is set; with
the gui-script flag it classifies as `PythonGuiStdin`, otherwise as
`PythonStdin` carrying the stdin bytes (`run.rs:1606-1617`). -/
theorem run_command_stdin_spec (env : RunEnv) (script guiScript : Bool)
    (args : List String) :
    fromArgs env true script guiScript (some "-") args =
        .error "Cannot run a Python module from stdin" ∧
      fromArgs env false script true (some "-") args =
        .ok (.pythonGuiStdin env.stdinBytes args) ∧
      fromArgs env false script false (some "-") args =
        .ok (.pythonStdin env.stdinBytes args) := by
  refine ⟨?_, ?_, ?_⟩ <;> rfl

end Uv
